import Mathlib

/-!
Verification of the lazy thread-safe singleton in `singleton.h` (namespace
`base`).  The instance word `instance_` is a machine word holding one of three
logical states: `0` (uncreated), `kBeingCreatedMarker = 1` (being created), or
any other value, read as the address of the live instance.  We model addresses
as natural numbers.

Two embeddings are developed, both translated from `Singleton::get`
(singleton.h lines 158-194) and `Singleton::OnExit` (lines 199-204):

* a sequential functional model (`base.get`, `base.OnExit`) in which a call
  that would enter the `WaitForInstance` spin loop is represented by `none`
  (a single thread that reaches that loop blocks forever);
* a concurrent small-step machine (`base.conc`) in which any number of threads
  interleave the individual atomic operations of `get`: the acquire load, the
  compare and swap, the call to `Traits::New`, the release store, and the
  re-loads of the wait loop.

`Traits` is the creation policy: `NewResults k` is the address returned by the
k-th invocation of `Traits::New` (0 models a NULL return), and
`kRegisterAtExit` is the registration flag.  Ghost counters record how often
`Traits::New` and `Traits::Delete` run and how many callbacks are handed to
the at-exit registry.
-/

namespace base

/-- The spinlock marker from singleton.h line 31: a word value of 1 means the
instance is being created. -/
def kBeingCreatedMarker : Nat := 1

/-- Creation policy (the `Traits` template parameter).  `NewResults k` is the
address the k-th call of `Traits::New` returns; `kRegisterAtExit` is the
policy's registration flag. -/
structure Traits where
  NewResults : Nat → Nat
  kRegisterAtExit : Bool

/-- DefaultSingletonTraits (singleton.h lines 45-69): `New` is `new Type()`,
abstracted by the allocator function `alloc`; `Delete` is `delete`;
`kRegisterAtExit` is false (line 61). -/
def DefaultSingletonTraits (alloc : Nat → Nat) : Traits :=
  { NewResults := alloc, kRegisterAtExit := false }

/-- State of one Singleton instantiation: the atomic word `instance_`
(singleton.h line 205) plus ghost counters for the number of calls of
`Traits::New`, of `Traits::Delete`, and of callbacks enqueued with the
at-exit registry. -/
structure SingletonState where
  instance_ : Nat
  newCalls : Nat
  deleteCalls : Nat
  atExitRegistrations : Nat
deriving DecidableEq, Repr

/-- The state of a freshly loaded process: `instance_ = 0` (singleton.h
line 209) and no policy routine has run. -/
def freshState : SingletonState :=
  { instance_ := 0, newCalls := 0, deleteCalls := 0, atExitRegistrations := 0 }

/-- Sequential embedding of `Singleton::get` (singleton.h lines 158-194).

* acquire-load of `instance_`; if the value is neither 0 nor the marker it is
  returned unchanged (lines 167-170);
* otherwise `Acquire_CompareAndSwap(&instance_, 0, marker)` (line 173): when
  `instance_ = 0` it succeeds, the word becomes the marker, `Traits::New()`
  runs, and its result is release-stored into the word and returned
  (lines 178-187).  The at-exit registration at lines 184-185 is commented
  out in the source, so `atExitRegistrations` is never incremented, whatever
  `kRegisterAtExit` says;
* when the compare and swap fails the caller enters `WaitForInstance`
  (line 191); a single sequential thread would spin there forever, which the
  model renders as `none`. -/
def get (T : Traits) (s : SingletonState) : Option (Nat × SingletonState) :=
  let value := s.instance_
  if value ≠ 0 ∧ value ≠ kBeingCreatedMarker then
    some (value, s)
  else if s.instance_ = 0 then
    let s₁ := { s with instance_ := kBeingCreatedMarker }
    let newval := T.NewResults s₁.newCalls
    let s₂ := { s₁ with newCalls := s₁.newCalls + 1 }
    let s₃ := { s₂ with instance_ := newval }
    some (newval, s₃)
  else
    none

/-- Embedding of `Singleton::OnExit` (singleton.h lines 199-204): the whole
body, the `Traits::Delete` call included, is commented out in the source, so
the function changes nothing. -/
def OnExit (s : SingletonState) : SingletonState := s

/-- Iterate `get` k times from a state, threading the state; a call that
would block (the `none` branch) leaves the state unchanged. -/
def getN (T : Traits) : Nat → SingletonState → SingletonState
  | 0, s => s
  | k + 1, s =>
    match get T s with
    | some (_, s') => getN T k s'
    | none => getN T k s

/-- A family of independently tagged instantiations sharing type and policy
(the `DifferentiatingType` template parameter, singleton.h lines 142-145):
each tag has its own static `instance_` word (line 209), so the family state
maps each tag to its own `SingletonState`.  `getAt` runs `get` on the state
of tag `t` and leaves every other tag's state alone. -/
def getAt {K : Type} [DecidableEq K] (T : Traits) (f : K → SingletonState)
    (t : K) : Option (Nat × (K → SingletonState)) :=
  match get T (f t) with
  | some (r, s') => some (r, Function.update f t s')
  | none => none

/-- Modelled from the spec: the body of `internal::WaitForInstance` lives in
a .cc file that is not part of the repository; singleton.h line 35 only
declares it.  Per the spec (§4.1 step 4) the function re-loads the state word
with acquire ordering until the value moves away from `kBeingCreatedMarker`,
then returns that value.  `loads k` is the value the k-th re-load observes;
the hypothesis is the progress assumption that some re-load eventually sees a
value other than the marker (the creator completes its publication), which is
exactly what makes the loop terminate. -/
def WaitForInstance (loads : Nat → Nat)
    (h : ∃ k, loads k ≠ kBeingCreatedMarker) : Nat :=
  loads (Nat.find h)

/-- A policy with the registration flag set whose New returns address 42. -/
def raeTraits : Traits := { NewResults := fun _ => 42, kRegisterAtExit := true }

/-- A policy whose first New call returns NULL and whose second returns 99. -/
def nullThenTraits : Traits :=
  { NewResults := fun k => if k = 0 then 0 else 99, kRegisterAtExit := false }

/-- A state whose word holds the created address 42. -/
def sCreated : SingletonState :=
  { instance_ := 42, newCalls := 1, deleteCalls := 0, atExitRegistrations := 0 }

/-- Load sequence observed by a waiting thread: the marker twice, then the
published address 7 forever. -/
def loads7 : Nat → Nat := fun k => if k < 2 then kBeingCreatedMarker else 7

namespace conc


/-- Program counter of one thread running `Singleton::get` (singleton.h
lines 158-194), one constructor per atomic access of the source:

* `start`: about to perform the acquire load of line 167;
* `tryCas`: the load saw 0 or the marker; about to run the compare and swap
  of line 173;
* `callNew`: the compare and swap succeeded; about to call `Traits::New()`
  (line 178);
* `publish v`: `Traits::New()` returned address `v`; about to release-store
  it (lines 181-182) and return it (line 187; the registration at
  lines 184-185 is commented out in the source);
* `waiting`: the compare and swap failed; spinning in
  `internal::WaitForInstance` (line 191), re-loading the word each step;
* `done r`: the call returned pointer `r`. -/
inductive PC where
  | start : PC
  | tryCas : PC
  | callNew : PC
  | publish : Nat → PC
  | waiting : PC
  | done : Nat → PC
deriving DecidableEq, Repr

/-- Configuration of n threads racing on one Singleton instantiation: the
shared atomic word `instance_`, each thread's program counter, and a ghost
count of `Traits::New` invocations. -/
structure Config (n : Nat) where
  word : Nat
  tstate : Fin n → PC
  newCalls : Nat

/-- One atomic step of a thread whose `Traits::New` would return `newval`,
given the current shared word: returns the new word and program counter.
Each branch mirrors one shared-memory operation of `Singleton::get`. -/
def threadStep (newval : Nat) (word : Nat) : PC → Nat × PC
  | .start =>
    if word ≠ 0 ∧ word ≠ kBeingCreatedMarker then (word, .done word)
    else (word, .tryCas)
  | .tryCas =>
    if word = 0 then (kBeingCreatedMarker, .callNew) else (word, .waiting)
  | .callNew => (word, .publish newval)
  | .publish v => (v, .done v)
  | .waiting =>
    if word = kBeingCreatedMarker then (word, .waiting) else (word, .done word)
  | .done r => (word, .done r)

/-- Whether the next step of this program counter invokes `Traits::New`. -/
def callsNew : PC → Bool
  | .callNew => true
  | _ => false

/-- Whether the call has returned. -/
def isDone : PC → Bool
  | .done _ => true
  | _ => false

/-- Run one step of thread i in a configuration. -/
def applyThread {n : Nat} (newVal : Fin n → Nat) (i : Fin n) (c : Config n) :
    Config n :=
  let r := threadStep (newVal i) c.word (c.tstate i)
  { word := r.1
    tstate := Function.update c.tstate i r.2
    newCalls := c.newCalls + (if callsNew (c.tstate i) then 1 else 0) }

/-- Interleaving semantics: some thread that has not yet returned takes its
next atomic step.  `newVal i` is the address `Traits::New` returns if thread
i ends up being the creator. -/
inductive Step {n : Nat} (newVal : Fin n → Nat) : Config n → Config n → Prop
  | mk (i : Fin n) (c : Config n) (h : isDone (c.tstate i) = false) :
      Step newVal c (applyThread newVal i c)

/-- Zero or more interleaved steps. -/
abbrev Steps {n : Nat} (newVal : Fin n → Nat) : Config n → Config n → Prop :=
  Relation.ReflTransGen (Step newVal)

/-- Fresh instantiation: word 0 (singleton.h line 209), every thread about to
issue its first load, no `Traits::New` call yet. -/
def initConfig (n : Nat) : Config n :=
  { word := 0, tstate := fun _ => .start, newCalls := 0 }

/-- Threads that hold no claim on creation: not yet past the compare and
swap, or spinning in the wait loop. -/
def OthersBenign {n : Nat} (c : Config n) (j : Fin n) : Prop :=
  ∀ i, i ≠ j →
    c.tstate i = .start ∨ c.tstate i = .tryCas ∨ c.tstate i = .waiting

/-- Inductive invariant of the machine when `Traits::New` never returns 0 or
the marker value.  Three phases, keyed by the shared word:

* word 0 (uncreated): `Traits::New` has not run and every thread is before
  its compare and swap;
* word = marker (being created): exactly one thread won the compare and swap;
  it is either about to call `Traits::New` or about to publish the address it
  obtained; everyone else is benign;
* any other word (created): `Traits::New` ran exactly once and every thread
  is benign or has returned the published address. -/
def Inv {n : Nat} (newVal : Fin n → Nat) (c : Config n) : Prop :=
  (c.word = 0 ∧ c.newCalls = 0 ∧
    ∀ i, c.tstate i = .start ∨ c.tstate i = .tryCas)
  ∨ (c.word = kBeingCreatedMarker ∧
      ∃ j, ((c.tstate j = .callNew ∧ c.newCalls = 0) ∨
            (c.tstate j = .publish (newVal j) ∧ c.newCalls = 1)) ∧
        OthersBenign c j)
  ∨ (c.word ≠ 0 ∧ c.word ≠ kBeingCreatedMarker ∧ c.newCalls = 1 ∧
      ∀ i, c.tstate i = .start ∨ c.tstate i = .tryCas ∨
        c.tstate i = .waiting ∨ c.tstate i = .done c.word)

/-- Traits::New of each of two racing threads returns address 5. -/
def fiveNew : Fin 2 → Nat := fun _ => 5

/-- Schedule for the C1 witness: thread 0 runs its four atomic steps of get()
to completion, then thread 1 takes the fast path. -/
def cW1 : Config 2 := applyThread fiveNew 0 (initConfig 2)
def cW2 : Config 2 := applyThread fiveNew 0 cW1
def cW3 : Config 2 := applyThread fiveNew 0 cW2
def cW4 : Config 2 := applyThread fiveNew 0 cW3
def cW5 : Config 2 := applyThread fiveNew 1 cW4

/-- Traits::New of the single thread in the witness run returns address 5. -/
def oneNew : Fin 1 → Nat := fun _ => 5

/-- Configuration after the single thread's first load. -/
def cM1 : Config 1 := applyThread oneNew 0 (initConfig 1)

/-- Traits::New returning NULL, modelled as address 0. -/
def zeroNew : Fin 1 → Nat := fun _ => 0

/-- Single-threaded run in which Traits::New returns NULL: load, successful
compare and swap, the New call, and the release store of its NULL result. -/
def cZ1 : Config 1 := applyThread zeroNew 0 (initConfig 1)
def cZ2 : Config 1 := applyThread zeroNew 0 cZ1
def cZ3 : Config 1 := applyThread zeroNew 0 cZ2
def cZ4 : Config 1 := applyThread zeroNew 0 cZ3

end conc

theorem get_created (T : Traits) (s : SingletonState)
    (h : s.instance_ ≠ 0 ∧ s.instance_ ≠ kBeingCreatedMarker) :
    get T s = some (s.instance_, s) := by
  simp [get, h]

theorem get_preserves_delete_and_registration (T : Traits)
    (s : SingletonState) :
    ∀ r s', get T s = some (r, s') →
      s'.deleteCalls = s.deleteCalls ∧
      s'.atExitRegistrations = s.atExitRegistrations := by
  intro r s' hget
  by_cases h1 : s.instance_ ≠ 0 ∧ s.instance_ ≠ kBeingCreatedMarker
  · simp [get, h1] at hget
    obtain ⟨-, rfl⟩ := hget
    exact ⟨rfl, rfl⟩
  · by_cases h2 : s.instance_ = 0
    · simp [get, h1, h2] at hget
      obtain ⟨-, rfl⟩ := hget
      exact ⟨rfl, rfl⟩
    · simp [get, h1, h2] at hget
      push_neg at h1
      exact absurd (h1 h2) hget.1

theorem getN_preserves_delete_and_registration (T : Traits) :
    ∀ (k : Nat) (s : SingletonState),
      (getN T k s).deleteCalls = s.deleteCalls ∧
      (getN T k s).atExitRegistrations = s.atExitRegistrations := by
  intro k
  induction k with
  | zero => intro s; simp [getN]
  | succ m ih =>
    intro s
    unfold getN
    rcases hget : get T s with _ | ⟨r, s'⟩
    · simpa using ih s
    · have h := get_preserves_delete_and_registration T s r s' hget
      have h' := ih s'
      simp only []
      omega

theorem get_uncreated (T : Traits) (s : SingletonState)
    (h : s.instance_ = 0) :
    get T s = some (T.NewResults s.newCalls,
      { s with instance_ := T.NewResults s.newCalls,
               newCalls := s.newCalls + 1 }) := by
  simp [get, h, kBeingCreatedMarker]

theorem getN_fixed (T : Traits) (s : SingletonState)
    (h : s.instance_ ≠ 0 ∧ s.instance_ ≠ kBeingCreatedMarker) :
    ∀ k, getN T k s = s := by
  intro k
  induction k with
  | zero => rfl
  | succ m ih =>
    unfold getN
    rw [get_created T s h]
    exact ih

/-- C3: whenever the word holds a Created(addr) value (anything other than 0
and the marker), get() returns that very pointer and leaves the whole state —
the word and the ghost count of Traits::New calls — unchanged, and any number
of repeated calls still returns the identical state. -/
theorem get_after_creation_idempotent (T : Traits) (s : SingletonState)
    (h : s.instance_ ≠ 0 ∧ s.instance_ ≠ kBeingCreatedMarker) :
    get T s = some (s.instance_, s) ∧ ∀ k, getN T k s = s :=
  ⟨get_created T s h, getN_fixed T s h⟩

theorem get_after_creation_idempotent_witness :
    (sCreated.instance_ ≠ 0 ∧ sCreated.instance_ ≠ kBeingCreatedMarker) ∧
    (get raeTraits sCreated = some (sCreated.instance_, sCreated) ∧
      ∀ k, getN raeTraits k sCreated = sCreated) :=
  ⟨by decide, get_after_creation_idempotent raeTraits sCreated (by decide)⟩

/-- C4: from the Uncreated state the compare and swap from 0 to the marker
succeeds, Traits::New runs exactly once (the ghost count rises by one), the
returned address is stored into the word, and that same pointer is the
result. -/
theorem get_creates_from_uncreated (T : Traits) (s : SingletonState)
    (h : s.instance_ = 0) :
    get T s = some (T.NewResults s.newCalls,
      { s with instance_ := T.NewResults s.newCalls,
               newCalls := s.newCalls + 1 }) :=
  get_uncreated T s h

theorem get_creates_from_uncreated_witness :
    freshState.instance_ = 0 ∧
    get raeTraits freshState = some (raeTraits.NewResults freshState.newCalls,
      { freshState with instance_ := raeTraits.NewResults freshState.newCalls,
                        newCalls := freshState.newCalls + 1 }) :=
  ⟨rfl, get_creates_from_uncreated raeTraits freshState rfl⟩

/-- C5 (code bug): with a policy whose kRegisterAtExit flag is true, a get()
from the fresh state creates and publishes the instance yet hands no callback
to the at-exit registry, and no number of further calls ever does: the
registration at singleton.h lines 184-185 is commented out, contradicting the
header's own documentation (lines 59-60 and 121-125) that with the flag set
the singleton is destroyed at process exit. -/
theorem registration_never_enqueued :
    raeTraits.kRegisterAtExit = true ∧
    get raeTraits freshState =
      some (42, { instance_ := 42, newCalls := 1, deleteCalls := 0,
                  atExitRegistrations := 0 }) ∧
    ∀ k, (getN raeTraits k freshState).atExitRegistrations = 0 := by
  refine ⟨rfl, by decide, ?_⟩
  intro k
  simpa using (getN_preserves_delete_and_registration raeTraits k freshState).2

/-- C6: a thread that observed the BeingCreated marker re-loads the word
until it changes; provided the creator completes its publication (some
re-load sees a value other than the marker) and the word meanwhile only ever
shows the marker or the published address, the wait terminates and returns
exactly the published address. -/
theorem wait_returns_published (loads : Nat → Nat) (addr : Nat)
    (h : ∃ k, loads k ≠ kBeingCreatedMarker)
    (hrange : ∀ j, loads j = kBeingCreatedMarker ∨ loads j = addr) :
    WaitForInstance loads h = addr := by
  have hfind := Nat.find_spec h
  rcases hrange (Nat.find h) with hm | hm
  · exact absurd hm hfind
  · exact hm

theorem wait_returns_published_witness :
    ((∃ k, loads7 k ≠ kBeingCreatedMarker) ∧
      ∀ j, loads7 j = kBeingCreatedMarker ∨ loads7 j = 7) ∧
    WaitForInstance loads7 ⟨2, by decide⟩ = 7 := by
  have hrange : ∀ j, loads7 j = kBeingCreatedMarker ∨ loads7 j = 7 := by
    intro j
    by_cases hj : j < 2 <;> simp [loads7, hj]
  exact ⟨⟨⟨2, by decide⟩, hrange⟩,
    wait_returns_published loads7 7 ⟨2, by decide⟩ hrange⟩

/-- C7: with DefaultSingletonTraits the registration flag is false, and any
number of get() calls leaves the at-exit registry untouched and never invokes
Traits::Delete. -/
theorem default_traits_no_registration_no_delete (alloc : Nat → Nat)
    (k : Nat) :
    (DefaultSingletonTraits alloc).kRegisterAtExit = false ∧
    (getN (DefaultSingletonTraits alloc) k freshState).atExitRegistrations
      = 0 ∧
    (getN (DefaultSingletonTraits alloc) k freshState).deleteCalls = 0 := by
  refine ⟨rfl, ?_, ?_⟩
  · simpa using
      (getN_preserves_delete_and_registration (DefaultSingletonTraits alloc) k
        freshState).2
  · simpa using
      (getN_preserves_delete_and_registration (DefaultSingletonTraits alloc) k
        freshState).1

/-- C8: two instantiations that differ only in the DifferentiatingType tag
have independent instance_ words: get() on tag t creates and returns tag t's
own instance (from its own word and its own New counter) and leaves the state
of every other tag — word, counters, everything — unchanged. -/
theorem tag_independence {K : Type} [DecidableEq K] (T : Traits)
    (f : K → SingletonState) (t t' : K) (hne : t ≠ t')
    (h0 : (f t).instance_ = 0) :
    ∃ f', getAt T f t = some (T.NewResults (f t).newCalls, f') ∧
      f' t' = f t' ∧
      (f' t).instance_ = T.NewResults (f t).newCalls ∧
      (f' t).newCalls = (f t).newCalls + 1 := by
  have h1 := get_uncreated T (f t) h0
  refine ⟨Function.update f t
    { f t with instance_ := T.NewResults (f t).newCalls,
               newCalls := (f t).newCalls + 1 }, ?_, ?_, ?_, ?_⟩
  · simp only [getAt, h1]
  · rw [Function.update_apply, if_neg (fun hts => hne hts.symm)]
  · rw [Function.update_apply, if_pos rfl]
  · rw [Function.update_apply, if_pos rfl]

theorem tag_independence_witness :
    ((0 : Nat) ≠ 1 ∧ ((fun _ : Nat => freshState) 0).instance_ = 0) ∧
    (∃ f', getAt raeTraits (fun _ : Nat => freshState) 0 =
        some (raeTraits.NewResults ((fun _ : Nat => freshState) 0).newCalls,
          f') ∧
      f' 1 = (fun _ : Nat => freshState) 1 ∧
      (f' 0).instance_ =
        raeTraits.NewResults ((fun _ : Nat => freshState) 0).newCalls ∧
      (f' 0).newCalls = ((fun _ : Nat => freshState) 0).newCalls + 1) :=
  ⟨⟨by decide, rfl⟩,
    tag_independence raeTraits (fun _ => freshState) 0 1 (by decide) rfl⟩

/-- C9: if Traits::New returns NULL on the creator path, the release store
writes 0 into the word — back to the Uncreated state — and get() returns
NULL; a subsequent call takes the creation path again and invokes New a
second time. -/
theorem null_new_resets_and_recreates (T : Traits) (s : SingletonState)
    (h0 : s.instance_ = 0) (hn : T.NewResults s.newCalls = 0) :
    ∃ s', get T s = some (0, s') ∧ s'.instance_ = 0 ∧
      s'.newCalls = s.newCalls + 1 ∧
      get T s' = some (T.NewResults (s.newCalls + 1),
        { s' with instance_ := T.NewResults (s.newCalls + 1),
                  newCalls := s.newCalls + 2 }) := by
  have h1 := get_uncreated T s h0
  rw [hn] at h1
  refine ⟨{ s with instance_ := 0, newCalls := s.newCalls + 1 },
    h1, rfl, rfl, ?_⟩
  have h2 := get_uncreated T
    { s with instance_ := 0, newCalls := s.newCalls + 1 } rfl
  simpa using h2

theorem null_new_resets_and_recreates_witness :
    (freshState.instance_ = 0 ∧
      nullThenTraits.NewResults freshState.newCalls = 0) ∧
    (∃ s', get nullThenTraits freshState = some (0, s') ∧
      s'.instance_ = 0 ∧ s'.newCalls = freshState.newCalls + 1 ∧
      get nullThenTraits s' =
        some (nullThenTraits.NewResults (freshState.newCalls + 1),
          { s' with
              instance_ := nullThenTraits.NewResults (freshState.newCalls + 1),
              newCalls := freshState.newCalls + 2 })) :=
  ⟨⟨rfl, rfl⟩, null_new_resets_and_recreates nullThenTraits freshState rfl rfl⟩

/-- C10: OnExit is a no-op — its whole body, the Traits::Delete call and the
resetting of instance_ included, is commented out in the source — so it
invokes no Delete, leaves the word with its Created value, and changes no
state at all. -/
theorem OnExit_noop (s : SingletonState) :
    OnExit s = s ∧ (OnExit s).instance_ = s.instance_ ∧
    (OnExit s).deleteCalls = s.deleteCalls :=
  ⟨rfl, rfl, rfl⟩

namespace conc

theorem applyThread_tstate {n : Nat} (newVal : Fin n → Nat) (i : Fin n)
    (c : Config n) (k : Fin n) :
    (applyThread newVal i c).tstate k =
      if k = i then (threadStep (newVal i) c.word (c.tstate i)).2
      else c.tstate k := by
  simp [applyThread, Function.update_apply]

theorem applyThread_word {n : Nat} (newVal : Fin n → Nat) (i : Fin n)
    (c : Config n) :
    (applyThread newVal i c).word =
      (threadStep (newVal i) c.word (c.tstate i)).1 := rfl

theorem applyThread_newCalls {n : Nat} (newVal : Fin n → Nat) (i : Fin n)
    (c : Config n) :
    (applyThread newVal i c).newCalls =
      c.newCalls + (if callsNew (c.tstate i) then 1 else 0) := rfl

theorem benign_step_marker (v : Nat) (pc : PC)
    (hpc : pc = .start ∨ pc = .tryCas ∨ pc = .waiting) :
    (threadStep v kBeingCreatedMarker pc).1 = kBeingCreatedMarker ∧
    ((threadStep v kBeingCreatedMarker pc).2 = .start ∨
      (threadStep v kBeingCreatedMarker pc).2 = .tryCas ∨
      (threadStep v kBeingCreatedMarker pc).2 = .waiting) ∧
    callsNew pc = false := by
  rcases hpc with h | h | h <;> subst h <;>
    simp [threadStep, callsNew, kBeingCreatedMarker]

theorem benign_step_created (v a : Nat) (pc : PC) (h0 : a ≠ 0)
    (h1 : a ≠ kBeingCreatedMarker)
    (hpc : pc = .start ∨ pc = .tryCas ∨ pc = .waiting) :
    (threadStep v a pc).1 = a ∧
    ((threadStep v a pc).2 = .start ∨ (threadStep v a pc).2 = .tryCas ∨
      (threadStep v a pc).2 = .waiting ∨ (threadStep v a pc).2 = .done a) ∧
    callsNew pc = false := by
  rcases hpc with h | h | h <;> subst h <;>
    simp [threadStep, callsNew, h0, h1]

theorem inv_step {n : Nat} {newVal : Fin n → Nat}
    (hNew : ∀ i, newVal i ≠ 0 ∧ newVal i ≠ kBeingCreatedMarker)
    {c c' : Config n} (hstep : Step newVal c c') (hinv : Inv newVal c) :
    Inv newVal c' := by
  obtain ⟨i, c, hi⟩ := hstep
  rcases hinv with ⟨hw, hnc, hall⟩ | ⟨hw, j, hj, hoth⟩ | ⟨hw0, hw1, hnc, hall⟩
  · -- uncreated phase
    rcases hall i with hpc | hpc
    · refine Or.inl ⟨?_, ?_, ?_⟩
      · simp [applyThread_word, hpc, hw, threadStep, kBeingCreatedMarker]
      · simp [applyThread_newCalls, hpc, callsNew, hnc]
      · intro k
        rw [applyThread_tstate]
        by_cases hk : k = i
        · simp [hk, hpc, hw, threadStep, kBeingCreatedMarker]
        · simp only [hk, if_false]
          exact hall k
    · refine Or.inr (Or.inl ⟨?_, i, ?_, ?_⟩)
      · simp [applyThread_word, hpc, hw, threadStep]
      · refine Or.inl ⟨?_, ?_⟩
        · rw [applyThread_tstate]
          simp [hpc, hw, threadStep]
        · simp [applyThread_newCalls, hpc, callsNew, hnc]
      · intro k hk
        rw [applyThread_tstate]
        simp only [hk, if_false]
        rcases hall k with h | h
        · exact Or.inl h
        · exact Or.inr (Or.inl h)
  · -- being-created phase
    by_cases hij : i = j
    · subst hij
      rcases hj with ⟨hpc, hnc⟩ | ⟨hpc, hnc⟩
      · -- the creator calls Traits::New
        refine Or.inr (Or.inl ⟨?_, i, ?_, ?_⟩)
        · simp [applyThread_word, hpc, hw, threadStep]
        · refine Or.inr ⟨?_, ?_⟩
          · rw [applyThread_tstate]
            simp [hpc, threadStep]
          · simp [applyThread_newCalls, hpc, callsNew, hnc]
        · intro k hk
          rw [applyThread_tstate]
          simp only [hk, if_false]
          exact hoth k hk
      · -- the creator publishes its address
        refine Or.inr (Or.inr ⟨?_, ?_, ?_, ?_⟩)
        · simp [applyThread_word, hpc, threadStep]
          exact (hNew i).1
        · simp [applyThread_word, hpc, threadStep]
          exact (hNew i).2
        · simp [applyThread_newCalls, hpc, callsNew, hnc]
        · intro k
          rw [applyThread_tstate, applyThread_word]
          by_cases hk : k = i
          · simp [hk, hpc, threadStep]
          · simp only [hk, if_false]
            rcases hoth k hk with h | h | h
            · exact Or.inl h
            · exact Or.inr (Or.inl h)
            · exact Or.inr (Or.inr (Or.inl h))
    · -- a non-creator thread steps while the word holds the marker
      have hb := benign_step_marker (newVal i) (c.tstate i) (hoth i hij)
      refine Or.inr (Or.inl ⟨?_, j, ?_, ?_⟩)
      · rw [applyThread_word, hw]
        exact hb.1
      · have hji : j ≠ i := fun h => hij h.symm
        have hjst : (applyThread newVal i c).tstate j = c.tstate j := by
          rw [applyThread_tstate, if_neg hji]
        have hcn : (applyThread newVal i c).newCalls = c.newCalls := by
          rw [applyThread_newCalls, hb.2.2]
          simp
        rw [hjst, hcn]
        exact hj
      · intro k hk
        rw [applyThread_tstate]
        by_cases hki : k = i
        · simp only [hki, if_true]
          rw [hw]
          exact hb.2.1
        · simp only [hki, if_false]
          exact hoth k hk
  · -- created phase
    by_cases hdone : c.tstate i = .done c.word
    · rw [hdone] at hi
      simp [isDone] at hi
    · have hpc : c.tstate i = .start ∨ c.tstate i = .tryCas ∨
          c.tstate i = .waiting := by
        rcases hall i with h | h | h | h
        · exact Or.inl h
        · exact Or.inr (Or.inl h)
        · exact Or.inr (Or.inr h)
        · exact absurd h hdone
      have hb := benign_step_created (newVal i) c.word (c.tstate i) hw0 hw1 hpc
      refine Or.inr (Or.inr ⟨?_, ?_, ?_, ?_⟩)
      · rw [applyThread_word, hb.1]
        exact hw0
      · rw [applyThread_word, hb.1]
        exact hw1
      · rw [applyThread_newCalls, hb.2.2]
        simpa using hnc
      · intro k
        rw [applyThread_tstate, applyThread_word, hb.1]
        by_cases hk : k = i
        · simp only [hk, if_true]
          exact hb.2.1
        · simp only [hk, if_false]
          exact hall k

theorem inv_init (n : Nat) (newVal : Fin n → Nat) :
    Inv newVal (initConfig n) :=
  Or.inl ⟨rfl, rfl, fun _ => Or.inl rfl⟩

theorem inv_reachable {n : Nat} {newVal : Fin n → Nat}
    (hNew : ∀ i, newVal i ≠ 0 ∧ newVal i ≠ kBeingCreatedMarker)
    {c : Config n} (h : Steps newVal (initConfig n) c) : Inv newVal c := by
  induction h with
  | refl => exact inv_init n newVal
  | tail _ hstep ih => exact inv_step hNew hstep ih

theorem word_step_cases {n : Nat} {newVal : Fin n → Nat}
    (hNew : ∀ i, newVal i ≠ 0 ∧ newVal i ≠ kBeingCreatedMarker)
    {c c' : Config n} (hstep : Step newVal c c') (hinv : Inv newVal c) :
    (c.word = 0 ∧ (c'.word = 0 ∨ c'.word = kBeingCreatedMarker))
    ∨ (c.word = kBeingCreatedMarker ∧
        (c'.word = kBeingCreatedMarker ∨
          (c'.word ≠ 0 ∧ c'.word ≠ kBeingCreatedMarker)))
    ∨ (c.word ≠ 0 ∧ c.word ≠ kBeingCreatedMarker ∧ c'.word = c.word) := by
  obtain ⟨i, c, hi⟩ := hstep
  rcases hinv with ⟨hw, hnc, hall⟩ | ⟨hw, j, hj, hoth⟩ | ⟨hw0, hw1, hnc, hall⟩
  · refine Or.inl ⟨hw, ?_⟩
    rcases hall i with hpc | hpc
    · exact Or.inl (by simp [applyThread_word, hpc, hw, threadStep,
        kBeingCreatedMarker])
    · exact Or.inr (by simp [applyThread_word, hpc, hw, threadStep])
  · refine Or.inr (Or.inl ⟨hw, ?_⟩)
    by_cases hij : i = j
    · subst hij
      rcases hj with ⟨hpc, _⟩ | ⟨hpc, _⟩
      · exact Or.inl (by simp [applyThread_word, hpc, hw, threadStep])
      · refine Or.inr ⟨?_, ?_⟩
        · simp [applyThread_word, hpc, threadStep]
          exact (hNew i).1
        · simp [applyThread_word, hpc, threadStep]
          exact (hNew i).2
    · have hb := benign_step_marker (newVal i) (c.tstate i) (hoth i hij)
      refine Or.inl ?_
      rw [applyThread_word, hw]
      exact hb.1
  · by_cases hdone : c.tstate i = .done c.word
    · rw [hdone] at hi
      simp [isDone] at hi
    · have hpc : c.tstate i = .start ∨ c.tstate i = .tryCas ∨
          c.tstate i = .waiting := by
        rcases hall i with h | h | h | h
        · exact Or.inl h
        · exact Or.inr (Or.inl h)
        · exact Or.inr (Or.inr h)
        · exact absurd h hdone
      have hb := benign_step_created (newVal i) c.word (c.tstate i) hw0 hw1 hpc
      exact Or.inr (Or.inr ⟨hw0, hw1, by rw [applyThread_word]; exact hb.1⟩)

/-- C1: for all N ≥ 1 threads calling get() concurrently for the first time on
a fresh instantiation, with Traits::New returning a valid address (neither 0
nor the marker), once every call has returned Traits::New was invoked exactly
once and all N calls returned the same non-null pointer. -/
theorem single_creation_once {n : Nat} (newVal : Fin n → Nat) (hn : 0 < n)
    (hNew : ∀ i, newVal i ≠ 0 ∧ newVal i ≠ kBeingCreatedMarker)
    {c : Config n} (hreach : Steps newVal (initConfig n) c)
    (hdone : ∀ i, isDone (c.tstate i) = true) :
    c.newCalls = 1 ∧ ∃ a, a ≠ 0 ∧ ∀ i, c.tstate i = PC.done a := by
  have hinv := inv_reachable hNew hreach
  rcases hinv with ⟨hw, hnc, hall⟩ | ⟨hw, j, hj, hoth⟩ | ⟨hw0, hw1, hnc, hall⟩
  · have hd := hdone ⟨0, hn⟩
    rcases hall ⟨0, hn⟩ with h | h <;> rw [h] at hd <;> simp [isDone] at hd
  · have hd := hdone j
    rcases hj with ⟨hpc, _⟩ | ⟨hpc, _⟩ <;> rw [hpc] at hd <;>
      simp [isDone] at hd
  · refine ⟨hnc, c.word, hw0, ?_⟩
    intro i
    have hd := hdone i
    rcases hall i with h | h | h | h
    · rw [h] at hd
      simp [isDone] at hd
    · rw [h] at hd
      simp [isDone] at hd
    · rw [h] at hd
      simp [isDone] at hd
    · exact h

theorem single_creation_once_witness :
    (0 < 2 ∧ (∀ i : Fin 2, fiveNew i ≠ 0 ∧ fiveNew i ≠ kBeingCreatedMarker) ∧
      Steps fiveNew (initConfig 2) cW5 ∧
      ∀ i, isDone (cW5.tstate i) = true) ∧
    (cW5.newCalls = 1 ∧ ∃ a, a ≠ 0 ∧ ∀ i, cW5.tstate i = PC.done a) := by
  have hsteps : Steps fiveNew (initConfig 2) cW5 :=
    Relation.ReflTransGen.tail (Relation.ReflTransGen.tail
      (Relation.ReflTransGen.tail (Relation.ReflTransGen.tail
        (Relation.ReflTransGen.tail Relation.ReflTransGen.refl
          (Step.mk 0 (initConfig 2) (by decide)))
        (Step.mk 0 cW1 (by decide)))
      (Step.mk 0 cW2 (by decide)))
      (Step.mk 0 cW3 (by decide)))
      (Step.mk 1 cW4 (by decide))
  exact ⟨⟨by decide, by decide, hsteps, by decide⟩,
    single_creation_once fiveNew (by decide) (by decide) hsteps (by decide)⟩

/-- C2 (amended): provided Traits::New never returns 0 or the marker, along
any execution from the fresh instantiation each step moves the word only
forward through Uncreated → BeingCreated → Created(addr): from 0 it stays 0 or
becomes the marker, from the marker it stays the marker or becomes a created
address, it never returns to 0 once nonzero, and a created value never
changes. -/
theorem word_monotone {n : Nat} {newVal : Fin n → Nat}
    (hNew : ∀ i, newVal i ≠ 0 ∧ newVal i ≠ kBeingCreatedMarker)
    {c c' : Config n} (hreach : Steps newVal (initConfig n) c)
    (hstep : Step newVal c c') :
    (c.word = 0 → c'.word = 0 ∨ c'.word = kBeingCreatedMarker) ∧
    (c.word = kBeingCreatedMarker →
      c'.word = kBeingCreatedMarker ∨
        (c'.word ≠ 0 ∧ c'.word ≠ kBeingCreatedMarker)) ∧
    (c.word ≠ 0 → c'.word ≠ 0) ∧
    (c.word ≠ 0 → c.word ≠ kBeingCreatedMarker → c'.word = c.word) := by
  have hcases := word_step_cases hNew hstep (inv_reachable hNew hreach)
  have hm : kBeingCreatedMarker ≠ 0 := by decide
  rcases hcases with ⟨hw, hd⟩ | ⟨hw, hd⟩ | ⟨h0, h1, heq⟩
  · refine ⟨fun _ => hd, ?_, ?_, ?_⟩
    · intro h
      rw [hw] at h
      exact absurd h.symm hm
    · intro h
      exact absurd hw h
    · intro h _
      exact absurd hw h
  · refine ⟨?_, fun _ => hd, ?_, ?_⟩
    · intro h
      rw [h] at hw
      exact absurd hw.symm hm
    · intro _
      rcases hd with h | h
      · rw [h]
        exact hm
      · exact h.1
    · intro _ h1'
      exact absurd hw h1'
  · refine ⟨?_, ?_, ?_, ?_⟩
    · intro h
      exact absurd h h0
    · intro h
      exact absurd h h1
    · intro _
      rw [heq]
      exact h0
    · intro _ _
      exact heq

theorem word_monotone_witness :
    ((∀ i : Fin 1, oneNew i ≠ 0 ∧ oneNew i ≠ kBeingCreatedMarker) ∧
      Steps oneNew (initConfig 1) (initConfig 1) ∧
      Step oneNew (initConfig 1) cM1) ∧
    (((initConfig 1).word = 0 →
        cM1.word = 0 ∨ cM1.word = kBeingCreatedMarker) ∧
      ((initConfig 1).word = kBeingCreatedMarker →
        cM1.word = kBeingCreatedMarker ∨
          (cM1.word ≠ 0 ∧ cM1.word ≠ kBeingCreatedMarker)) ∧
      ((initConfig 1).word ≠ 0 → cM1.word ≠ 0) ∧
      ((initConfig 1).word ≠ 0 → (initConfig 1).word ≠ kBeingCreatedMarker →
        cM1.word = (initConfig 1).word)) := by
  have hstep : Step oneNew (initConfig 1) cM1 :=
    Step.mk 0 (initConfig 1) (by decide)
  exact ⟨⟨by decide, Relation.ReflTransGen.refl, hstep⟩,
    word_monotone (by decide) Relation.ReflTransGen.refl hstep⟩

/-- C2 counterexample: when Traits::New returns NULL, the release store at
singleton.h lines 181-182 writes that NULL back into the word, so after
holding the BeingCreated marker the word is 0 (Uncreated) again even though
New ran: the word does return to Uncreated, refuting the claim that no
operation of the class ever stores 0 back into instance_. -/
theorem word_reset_cex :
    Steps zeroNew (initConfig 1) cZ2 ∧ cZ2.word = kBeingCreatedMarker ∧
    Steps zeroNew cZ2 cZ4 ∧ cZ4.word = 0 ∧ cZ4.newCalls = 1 := by
  refine ⟨?_, by decide, ?_, by decide, by decide⟩
  · exact Relation.ReflTransGen.tail (Relation.ReflTransGen.tail
      Relation.ReflTransGen.refl (Step.mk 0 (initConfig 1) (by decide)))
      (Step.mk 0 cZ1 (by decide))
  · exact Relation.ReflTransGen.tail (Relation.ReflTransGen.tail
      Relation.ReflTransGen.refl (Step.mk 0 cZ2 (by decide)))
      (Step.mk 0 cZ3 (by decide))

end conc

end base
